import Mathlib

/-!
Verification of the RAG core pipeline: the recursive character text splitter
(`src/rag/components/data_sources/text_splitter.py`), the in-memory vector
store (`src/rag/components/vector_stores/in_memory.py`) and the simple
retriever (`src/rag/components/retrieval/simple_retriever.py`).

Python strings are modelled by lists of characters (`PyStr`), Python
`int` by `Int`, Python `float` by `ℝ` (exact real arithmetic in place of
IEEE binary32; the store converts everything to `np.float32` before
scoring), Python lists by Lean `List`, and raised exceptions by an
explicit `Except PyErr` result (or by a `(result, state)` pair where the
mutation discipline matters).
-/

namespace Rag

/-- Errors raised by the modelled Python code.  Both the length-mismatch
check in `add_documents` and the empty-separator failure of `str.split`
raise `ValueError` in Python, so both map to `PyErr.valueError`;
`PyErr.indexError` models an out-of-range list subscript.
`PyErr.outOfFuel` is an artifact of the fuelled encoding of loops and can
only be produced when the fuel supplied is too small; every theorem below
either supplies ample fuel at a concrete input or is conditioned on an
`Except.ok` result, so no proof depends on fuel exhaustion. -/
inductive PyErr where
  | valueError : PyErr
  | indexError : PyErr
  | outOfFuel : PyErr
deriving DecidableEq, Repr

/-- Equality of `Except` results is decidable; used to evaluate the
model at concrete inputs. -/
instance exceptDecEq {e a : Type} [DecidableEq e] [DecidableEq a] :
    DecidableEq (Except e a) :=
  fun x y =>
    match x, y with
    | .error u, .error v =>
      if h : u = v then .isTrue (by rw [h]) else .isFalse (by simp [h])
    | .ok u, .ok v =>
      if h : u = v then .isTrue (by rw [h]) else .isFalse (by simp [h])
    | .error _, .ok _ => .isFalse (by simp)
    | .ok _, .error _ => .isFalse (by simp)

/-- Python strings are modelled as character lists so that every string
operation of the splitter is structurally recursive and kernel-evaluable;
`String` itself hides well-founded recursion in `splitOn`/`trim`. -/
abbrev PyStr : Type := List Char

/-- Python `lst[i]` on a list: negative indices count from the end, and
an index outside the list raises `IndexError`. -/
def pyIndex (l : List α) (i : Int) (dflt : α) : Except PyErr α :=
  let j : Int := if i < 0 then i + l.length else i
  if 0 ≤ j ∧ j < l.length then .ok (l.getD j.toNat dflt) else .error .indexError

/-- Python `lst[:k]` (also `ndarray[:k]`): a non-negative bound takes the
first `k` elements, a negative bound drops the last `-k`. -/
def pyTake (k : Int) (l : List α) : List α :=
  l.take (if k < 0 then ((l.length : Int) + k).toNat else k.toNat)

/-- The characters Python `str.strip()` removes (the ASCII whitespace
class; the inputs considered here contain no further Unicode
whitespace). -/
def pyIsSpace (c : Char) : Bool :=
  c = ' ' || c = '\t' || c = '\n' || c = '\r' || c = '\x0b' || c = '\x0c'

/-- Python `s.strip()`. -/
def pyStrip (s : PyStr) : PyStr :=
  ((s.dropWhile pyIsSpace).reverse.dropWhile pyIsSpace).reverse

/-- Truthiness of `s.strip()`: the string has a non-whitespace
character. -/
def pyStripNonEmpty (s : PyStr) : Bool :=
  pyStrip s ≠ []

/-- When `pre` is a prefix of `s`, the remainder of `s` after it. -/
def dropPre (pre s : PyStr) : Option PyStr :=
  match pre, s with
  | [], rest => some rest
  | _ :: _, [] => none
  | p :: ps, c :: cs => if p = c then dropPre ps cs else none

/-- The scanning loop of Python `s.split(sep)` for a non-empty `sep`:
leftmost, non-overlapping matches; empty pieces are kept.  `current`
holds the piece being read, in reverse.  The fuel is structural; callers
supply `s.length + 1`, enough for every step to consume at least one
character. -/
def splitGo (sep : PyStr) : Nat → PyStr → PyStr → List PyStr
  | 0, s, current => [current.reverse ++ s]
  | _ + 1, [], current => [current.reverse]
  | fuel + 1, c :: cs, current =>
    match dropPre sep (c :: cs) with
    | some rest => current.reverse :: splitGo sep fuel rest []
    | none => splitGo sep fuel cs (c :: current)

/-- Python `s.split(sep)`: raises `ValueError: empty separator` when
`sep` is empty, otherwise splits on every occurrence keeping empty
pieces (so splitting the empty string yields `[""]`). -/
def pySplit (sep : PyStr) (s : PyStr) : Except PyErr (List PyStr) :=
  if sep = [] then .error .valueError else .ok (splitGo sep (s.length + 1) s [])

/-- Python `sep.join(parts)`. -/
def pyJoin (sep : PyStr) (parts : List PyStr) : PyStr :=
  (parts.intersperse sep).flatten

/-- Python `s[-k:]` for `k > 0`: the last `min(k, len(s))` characters. -/
def pyTakeLast (k : Nat) (s : PyStr) : PyStr :=
  s.drop (s.length - k)

/-- `RecursiveCharacterTextSplitter`'s default separator list
`["\n\n", "\n", ". ", " ", ""]`. -/
def defaultSeparators : List PyStr :=
  [['\n', '\n'], ['\n'], ['.', ' '], [' '], []]

/-- The greedy packing loop of `_split_text_recursive` (text_splitter.py
lines 172-194), in the base-case branch.  State is
`(chunks, current_chunk, current_size)` exactly as in the source;
`recurse` is the recursive call `_split_text_recursive(split, separators,
depth + 1)`, taken as a parameter so that the fuel of the caller drives
termination. -/
def packLoop (chunkSize : Int) (separator : PyStr) (sepCount : Nat) (depth : Nat)
    (recurse : PyStr → Except PyErr (List PyStr)) :
    List PyStr → List PyStr × List PyStr × Int → Except PyErr (List PyStr × List PyStr × Int)
  | [], st => .ok st
  | split :: rest, (chunks, currentChunk, currentSize) =>
    let splitSize : Int := split.length
    if currentSize + splitSize + separator.length ≤ chunkSize then
      packLoop chunkSize separator sepCount depth recurse rest
        (chunks, currentChunk ++ [split], currentSize + splitSize + separator.length)
    else
      let chunks1 := if currentChunk ≠ [] then chunks ++ [pyJoin separator currentChunk] else chunks
      if splitSize > chunkSize ∧ (depth : Int) < (sepCount : Int) - 1 then do
        let subChunks ← recurse split
        packLoop chunkSize separator sepCount depth recurse rest (chunks1 ++ subChunks, [], 0)
      else
        packLoop chunkSize separator sepCount depth recurse rest (chunks1, [split], splitSize)

/-- The loop of the non-base branch of `_split_text_recursive`
(text_splitter.py lines 207-211): recursively split every piece that is
not whitespace-only and concatenate the results. -/
def recurseLoop (recurse : PyStr → Except PyErr (List PyStr)) :
    List PyStr → List PyStr → Except PyErr (List PyStr)
  | [], chunks => .ok chunks
  | split :: rest, chunks =>
    if ((pyStrip split).length : Int) > 0 then do
      let subChunks ← recurse split
      recurseLoop recurse rest (chunks ++ subChunks)
    else
      recurseLoop recurse rest chunks

/-- `_split_text_recursive(text, separators, depth)` of
`RecursiveCharacterTextSplitter.split_text` (text_splitter.py lines
158-213).  The `fuel` argument only drives the structural recursion; each
recursive call in the source increases `depth` by exactly one, so the top
level call supplies `separators.length + 1` fuel, which is never
exhausted. -/
def splitTextRecursive (chunkSize : Int) (separators : List PyStr) :
    Nat → PyStr → Nat → Except PyErr (List PyStr)
  | 0, _, _ => .error .outOfFuel
  | fuel + 1, text, depth =>
    if (depth : Int) = (separators.length : Int) - 1 ∨ (text.length : Int) ≤ chunkSize then do
      let separator ← pyIndex separators (depth : Int) []
      let splits0 ← pySplit separator text
      let splits := splits0.filter pyStripNonEmpty
      let (chunks, currentChunk, _) ←
        packLoop chunkSize separator separators.length depth
          (fun t => splitTextRecursive chunkSize separators fuel t (depth + 1))
          splits ([], [], 0)
      if currentChunk ≠ [] then
        return chunks ++ [pyJoin separator currentChunk]
      else
        return chunks
    else do
      let separator ← pyIndex separators (depth : Int) []
      let splits ← pySplit separator text
      recurseLoop
        (fun t => splitTextRecursive chunkSize separators fuel t (depth + 1))
        splits []

/-- The overlap pass of `RecursiveCharacterTextSplitter.split_text`
(text_splitter.py lines 218-233): chunk 0 is kept; for `i ≥ 1`, when the
previous pre-overlap chunk is strictly longer than `chunk_overlap`, its
last `chunk_overlap` characters (Python `previous_text[-overlap:]`) are
prepended directly to chunk `i`; otherwise chunk `i` is kept unchanged.
The pass reads `chunks[i-1]` from the original list, which the
`zip chunks rest` pairing reproduces. -/
def addOverlap (chunkOverlap : Int) (chunks : List PyStr) : List PyStr :=
  if chunkOverlap > 0 ∧ chunks.length > 1 then
    match chunks with
    | [] => []
    | c0 :: rest =>
      c0 :: (chunks.zip rest).map (fun pc =>
        if (pc.1.length : Int) > chunkOverlap then
          pyTakeLast chunkOverlap.toNat pc.1 ++ pc.2
        else
          pc.2)
  else
    chunks

/-- `RecursiveCharacterTextSplitter.split_text` (text_splitter.py lines
147-235): the recursive split followed by the overlap pass. -/
def splitText (chunkSize chunkOverlap : Int) (separators : List PyStr) (text : PyStr) :
    Except PyErr (List PyStr) :=
  (splitTextRecursive chunkSize separators (separators.length + 1) text 0).map
    (addOverlap chunkOverlap)

/-! ### np.argsort

`similarity_search` ranks scores with `np.argsort` under its default
`kind='quicksort'`.  numpy's default sort is introsort (file
`numpy/core/src/npysort/quicksort.c.src`, function `aquicksort`): segments
of more than 16 elements are partitioned with a median-of-three Hoare
partition (macro constant `SMALL_QUICKSORT = 15`, loop guard
`pr - pl > 15`), smaller segments are finished by insertion sort, and a
segment reached after the depth limit `2 * msb(n)` is exhausted is sorted
by heapsort.  This sort is *not stable*: the partition swaps equal
elements across the pivot.  The model below follows that algorithm on the
index array `tosort = [0, …, n-1]`; `lt i j` decides `values[i] <
values[j]` on the original (never moved) value array, exactly like the
`LT(vl[*p], vp)` comparisons of the C code.  Loops are fuelled; the fuel
supplied by `npyArgsortBy` is ample for every actual execution, and the
invariant lemmas below hold for any fuel. -/

/-- Swap the entries at positions `i` and `j` (numpy `INTP_SWAP`). -/
def listSwap (l : List Nat) (i j : Nat) : List Nat :=
  (l.set i (l.getD j 0)).set j (l.getD i 0)

/-- The pointer scan `do ++pi; while (LT(vl[*pi], vp));` of the
partition: starting at `pi`, advance while the element is below the
pivot. -/
def scanUp (lt : Nat → Nat → Bool) (ts : List Nat) (vp : Nat) : Nat → Nat → Nat
  | 0, pi => pi
  | fuel + 1, pi => if lt (ts.getD pi 0) vp then scanUp lt ts vp fuel (pi + 1) else pi

/-- The pointer scan `do --pj; while (LT(vp, vl[*pj]));` of the
partition. -/
def scanDown (lt : Nat → Nat → Bool) (ts : List Nat) (vp : Nat) : Nat → Nat → Nat
  | 0, pj => pj
  | fuel + 1, pj => if lt vp (ts.getD pj 0) then scanDown lt ts vp fuel (pj - 1) else pj

/-- The swap loop of the Hoare partition (`for (;;) { … }` in
`aquicksort`); returns the array and the final `pi`. -/
def partLoop (lt : Nat → Nat → Bool) (vp : Nat) : Nat → List Nat → Nat → Nat → List Nat × Nat
  | 0, ts, pi, _ => (ts, pi)
  | fuel + 1, ts, pi, pj =>
    let pi' := scanUp lt ts vp (ts.length + 2) (pi + 1)
    let pj' := scanDown lt ts vp (ts.length + 2) (pj - 1)
    if pi' ≥ pj' then (ts, pi')
    else partLoop lt vp fuel (listSwap ts pi' pj') pi' pj'

/-- Insert an index into an already sorted index list, after every entry
whose value is not above it — the shift loop
`while (pj > pl && LT(vp, vl[*pk])) …` of `aquicksort`'s insertion-sort
finish, which keeps equal elements in their arrival order. -/
def npyInsert (lt : Nat → Nat → Bool) (x : Nat) : List Nat → List Nat
  | [] => [x]
  | y :: ys => if lt x y then x :: y :: ys else y :: npyInsert lt x ys

/-- The insertion sort that finishes small segments, processing elements
left to right as the C loop `for (pi = pl + 1; pi <= pr; ++pi)` does. -/
def npyInsertSort (lt : Nat → Nat → Bool) (l : List Nat) : List Nat :=
  l.foldl (fun acc x => npyInsert lt x acc) []

/-- Insertion sort applied in place to the segment `[pl, pr]` of the
index array. -/
def spliceSorted (lt : Nat → Nat → Bool) (ts : List Nat) (pl pr : Nat) : List Nat :=
  ts.take pl ++ npyInsertSort lt ((ts.drop pl).take (pr + 1 - pl)) ++ (ts.drop pl).drop (pr + 1 - pl)

/-- One-based read on the index array, as numpy's `aheapsort` uses
(`npy_intp *a = tosort - 1`). -/
def get1 (l : List Nat) (i : Nat) : Nat :=
  l.getD (i - 1) 0

/-- One-based write on the index array. -/
def set1 (l : List Nat) (i : Nat) (v : Nat) : List Nat :=
  l.set (i - 1) v

/-- The sift-down loop of `aheapsort` (both phases share it), ending with
the write `a[i] = tmp`. -/
def hsSift (lt : Nat → Nat → Bool) : Nat → List Nat → Nat → Nat → Nat → Nat → List Nat
  | 0, l, tmp, _, i, _ => set1 l i tmp
  | fuel + 1, l, tmp, last, i, j =>
    if j ≤ last then
      let j' := if j < last && lt (get1 l j) (get1 l (j + 1)) then j + 1 else j
      if lt tmp (get1 l j') then hsSift lt fuel (set1 l i (get1 l j')) tmp last j' (j' + j')
      else set1 l i tmp
    else set1 l i tmp

/-- The heap construction phase of `aheapsort`
(`for (l = n >> 1; l > 0; --l)`). -/
def hsBuild (lt : Nat → Nat → Bool) (n : Nat) : Nat → List Nat → List Nat
  | 0, l => l
  | l0 + 1, l =>
    hsBuild lt n l0 (hsSift lt (n + 2) l (get1 l (l0 + 1)) n (l0 + 1) (2 * (l0 + 1)))

/-- The extraction phase of `aheapsort` (`for (; n > 1;)`). -/
def hsExtract (lt : Nat → Nat → Bool) : Nat → List Nat → List Nat
  | 0, l => l
  | 1, l => l
  | n + 2, l =>
    let m := n + 2
    let tmp := get1 l m
    let l1 := set1 l m (get1 l 1)
    hsExtract lt (n + 1) (hsSift lt (m + 2) l1 tmp (m - 1) 1 2)

/-- numpy `aheapsort` on a whole index list. -/
def aheapsortList (lt : Nat → Nat → Bool) (l : List Nat) : List Nat :=
  hsExtract lt l.length (hsBuild lt l.length (l.length / 2) l)

/-- Heapsort applied in place to the segment `[pl, pr]`, as the
depth-limit fallback `aheapsort(vl, pl, pr - pl + 1)` does. -/
def heapsortSeg (lt : Nat → Nat → Bool) (ts : List Nat) (pl pr : Nat) : List Nat :=
  ts.take pl ++ aheapsortList lt ((ts.drop pl).take (pr + 1 - pl)) ++ (ts.drop pl).drop (pr + 1 - pl)

/-- The median-of-three pivot selection of `aquicksort`: the three
conditional swaps that order `*pl`, `*pm`, `*pr` by their values. -/
def medianOf3 (lt : Nat → Nat → Bool) (ts : List Nat) (pl pr pm : Nat) : List Nat :=
  let ts1 := if lt (ts.getD pm 0) (ts.getD pl 0) then listSwap ts pm pl else ts
  let ts2 := if lt (ts1.getD pr 0) (ts1.getD pm 0) then listSwap ts1 pr pm else ts1
  if lt (ts2.getD pm 0) (ts2.getD pl 0) then listSwap ts2 pm pl else ts2

/-- One full partition round of `aquicksort` on the segment `[pl, pr]`:
median-of-three pivot selection, pivot parked at `pr - 1`
(`INTP_SWAP(*pm, *pj)`), the Hoare scan-and-swap loop, and the final
`INTP_SWAP(*pi, *pk)` restoring the pivot; returns the array and the
split point `pi`. -/
def partitionStep (lt : Nat → Nat → Bool) (ts : List Nat) (pl pr : Nat) : List Nat × Nat :=
  let pm := pl + (pr - pl) / 2
  let ts3 := medianOf3 lt ts pl pr pm
  let vp := ts3.getD pm 0
  let pj := pr - 1
  let ts4 := listSwap ts3 pm pj
  let pim := partLoop lt vp (pr + 2) ts4 pl pj
  (listSwap pim.1 pim.2 (pr - 1), pim.2)

/-- The driver loop of `aquicksort`: `pl, pr` delimit the current
segment, `dl` is the remaining introsort depth budget (tested and then
decremented at the head of each partition round, `depth_limit-- < 0`),
and `stack` holds the postponed partition halves (the C code pushes the
larger half and continues with the smaller). -/
def aqsortLoop (lt : Nat → Nat → Bool) : Nat → List Nat → Nat → Nat → Int → List (Nat × Nat) → List Nat
  | 0, ts, _, _, _, _ => ts
  | fuel + 1, ts, pl, pr, dl, stack =>
    if pr - pl > 15 then
      if dl < 0 then
        let ts' := heapsortSeg lt ts pl pr
        match stack with
        | [] => ts'
        | (pl', pr') :: rest => aqsortLoop lt fuel ts' pl' pr' (dl - 1) rest
      else
        let ps := partitionStep lt ts pl pr
        if ps.2 - pl < pr - ps.2 then
          aqsortLoop lt fuel ps.1 pl (ps.2 - 1) (dl - 1) ((ps.2 + 1, pr) :: stack)
        else
          aqsortLoop lt fuel ps.1 (ps.2 + 1) pr (dl - 1) ((pl, ps.2 - 1) :: stack)
    else
      let ts' := spliceSorted lt ts pl pr
      match stack with
      | [] => ts'
      | (pl', pr') :: rest => aqsortLoop lt fuel ts' pl' pr' dl rest

/-- `np.argsort(values)` for an abstract strict comparison on positions:
introsort of the index array `[0, …, n-1]` with depth limit
`2 * msb(n)`. -/
def npyArgsortBy (lt : Nat → Nat → Bool) (n : Nat) : List Nat :=
  aqsortLoop lt (2 * n + 64) (List.range n) 0 (n - 1) (2 * (Nat.log2 n : Int)) []

/-! ### The in-memory vector store -/

/-- `Document` (data_sources/base.py): content, metadata and an optional
id.  Metadata values (`Dict[str, Any]`) are modelled as strings, which is
all the retriever's formatting reads back.  `__post_init__` replaces a
missing metadata dict by `{}`, so the field is a plain list here. -/
structure Document where
  content : String
  metadata : List (String × String)
  id : Option String
deriving DecidableEq, Repr

/-- Placeholder used to give Python's always-in-range list subscripts a
total Lean meaning. -/
def defaultDoc : Document :=
  ⟨"", [], none⟩

/-- The `SimilarityMetric` enum of in_memory.py. -/
inductive SimilarityMetric where
  | cosine : SimilarityMetric
  | dotProduct : SimilarityMetric
  | euclidean : SimilarityMetric
deriving DecidableEq, Repr

/-- The state of an `InMemoryVectorStore`: the two parallel lists and the
metric fixed at construction. -/
structure Store where
  documents : List Document
  embeddings : List (List ℝ)
  similarityMetric : SimilarityMetric

/-- `np.dot` of two vectors (also one row of the matrix-vector product
`np.dot(embeddings_np, query_embedding_np)`). -/
def dot (a b : List ℝ) : ℝ :=
  (List.zipWith (· * ·) a b).sum

/-- Sum of squared entries of a vector. -/
def sumSq (l : List ℝ) : ℝ :=
  (l.map (· ^ 2)).sum

/-- `np.linalg.norm`: the Euclidean norm. -/
noncomputable def l2norm (l : List ℝ) : ℝ :=
  Real.sqrt (sumSq l)

/-- `np.linalg.norm(embeddings_np - query_embedding_np, axis=1)` for one
row: the distance between a stored embedding and the query. -/
noncomputable def l2dist (a b : List ℝ) : ℝ :=
  Real.sqrt (sumSq (List.zipWith (· - ·) a b))

/-- The similarity scores of `similarity_search` (in_memory.py lines
83-108), one per stored embedding, in storage order:
cosine — the query is normalized when its norm is positive, stored rows
are divided by their norms with zero norms replaced by `1.0`
(`norms[norms == 0] = 1.0`), then the dot product is taken;
dot product — the raw dot product; euclidean — `1 / (1 + distance)`.
The `else: raise ValueError` branch for an unknown metric is
unreachable here because `SimilarityMetric` is a closed enum, matched
exhaustively. -/
noncomputable def computeSims (s : Store) (q : List ℝ) : List ℝ :=
  match s.similarityMetric with
  | .cosine =>
    let qn := l2norm q
    let q' := if qn > 0 then q.map (· / qn) else q
    s.embeddings.map (fun e =>
      let n := l2norm e
      let n' := if n = 0 then 1 else n
      dot (e.map (· / n')) q')
  | .dotProduct => s.embeddings.map (fun e => dot e q)
  | .euclidean => s.embeddings.map (fun e => 1 / (1 + l2dist e q))

/-- `np.argsort` on a list of real scores (ascending, default
`kind='quicksort'`). -/
noncomputable def npyArgsort (v : List ℝ) : List Nat :=
  npyArgsortBy (fun i j => decide (v.getD i 0 < v.getD j 0)) v.length

/-- `InMemoryVectorStore.similarity_search` (in_memory.py lines 56-130).
With a threshold, the indices scoring at least `threshold` are kept
(`np.nonzero(similarities >= threshold)`, in ascending order), ranked by
`np.argsort(-similarities[indices])` and cut to `k`; without one, all
indices are ranked by `np.argsort(-similarities)` and cut to `k`.  The
result pairs each selected document with its score. -/
noncomputable def similaritySearch (s : Store) (q : List ℝ) (k : Int)
    (threshold : Option ℝ) : List (Document × ℝ) :=
  if s.embeddings = [] then []
  else
    let sims := computeSims s q
    match threshold with
    | some t =>
      let indices := (List.range sims.length).filter (fun i => decide (sims.getD i 0 ≥ t))
      let order := npyArgsort ((indices.map (fun i => sims.getD i 0)).map Neg.neg)
      let sortedIndices := pyTake k (order.map (fun p => indices.getD p 0))
      sortedIndices.map (fun i => (s.documents.getD i defaultDoc, sims.getD i 0))
    | none =>
      let sortedIndices := pyTake k (npyArgsort (sims.map Neg.neg))
      sortedIndices.map (fun i => (s.documents.getD i defaultDoc, sims.getD i 0))

/-- `similarity_search` as a state transformer: the method body only
reads `self`; `query_embedding_np`, `embeddings_np` and `norms` are fresh
local arrays (`np.array(...)` copies its argument), so the in-place
`norms[norms == 0] = 1.0` touches no store field and the store the method
leaves behind is the one it received. -/
noncomputable def similaritySearchRun (s : Store) (q : List ℝ) (k : Int)
    (threshold : Option ℝ) : List (Document × ℝ) × Store :=
  (similaritySearch s q k threshold, s)

/-- `InMemoryVectorStore.add_documents` (in_memory.py lines 40-54) as a
state transformer: the length check precedes both `extend` calls, so on
mismatch the `ValueError` is raised with the store untouched; on success
both lists are extended in order. -/
def addDocuments (s : Store) (documents : List Document)
    (embeddings : List (List ℝ)) : Except PyErr Unit × Store :=
  if documents.length ≠ embeddings.length then
    (.error .valueError, s)
  else
    (.ok (), { s with documents := s.documents ++ documents,
                      embeddings := s.embeddings ++ embeddings })

/-- `InMemoryVectorStore.document_count`. -/
def documentCount (s : Store) : Nat :=
  s.documents.length

/-! ### The simple retriever -/

/-- `SimpleRetriever` (simple_retriever.py): the store, the embedder
capability, and the configured defaults.  `self.threshold` may hold
`None` when neither the caller nor the configuration supplies a value. -/
structure Retriever where
  vectorStore : Store
  embedQuery : String → List ℝ
  topK : Int
  threshold : Option ℝ

/-- The resolution `top_k = top_k or self.top_k` (simple_retriever.py
line 62): Python `or` falls back on any falsy value, so both `None` and
`0` select the retriever default. -/
def resolveTopK (topK : Option Int) (dflt : Int) : Int :=
  match topK with
  | some v => if v = 0 then dflt else v
  | none => dflt

/-- The resolution `threshold = threshold if threshold is not None else
self.threshold` (simple_retriever.py line 63): only `None` falls back, a
given `0.0` is kept. -/
def resolveThreshold (threshold : Option ℝ) (dflt : Option ℝ) : Option ℝ :=
  match threshold with
  | some v => some v
  | none => dflt

/-- `SimpleRetriever.retrieve` (simple_retriever.py lines 49-90): resolve
the parameters, embed the query, run the similarity search, and strip the
scores. -/
noncomputable def retrieve (r : Retriever) (query : String) (topK : Option Int)
    (threshold : Option ℝ) : List Document :=
  let k := resolveTopK topK r.topK
  let t := resolveThreshold threshold r.threshold
  let queryEmbedding := r.embedQuery query
  let results := similaritySearch r.vectorStore queryEmbedding k t
  results.map Prod.fst

/-- Assoc-list counterpart of `doc.metadata.get(key, dflt)`. -/
def metaGet (metadata : List (String × String)) (key dflt : String) : String :=
  match metadata.find? (fun p => p.1 = key) with
  | some p => p.2
  | none => dflt

/-- `SimpleRetriever.format_retrieved_documents` (simple_retriever.py
lines 92-117): the empty sequence yields the fixed German sentinel; a
non-empty one is rendered block by block (1-based index, source label
with fallback `Unbekannt`, chunk label, content) joined by newlines. -/
def formatRetrievedDocuments (documents : List Document) : String :=
  if documents = [] then
    "Es wurden keine relevanten Dokumente gefunden."
  else
    let formattedTexts := (List.range documents.length).map (fun i =>
      let doc := documents.getD i defaultDoc
      let sourceInfo := if doc.metadata ≠ [] then
          "Quelle: " ++ metaGet doc.metadata "source" "Unbekannt"
        else "Quelle: Unbekannt"
      let chunkInfo := if doc.metadata ≠ [] then
          "Chunk: " ++ metaGet doc.metadata "chunk" "Unbekannt" ++ "/" ++
            metaGet doc.metadata "chunk_count" "Unbekannt"
        else ""
      "[Dokument " ++ toString (i + 1) ++ "] " ++ sourceInfo ++ " " ++ chunkInfo ++
        "\n" ++ doc.content ++ "\n")
    String.intercalate "\n" formattedTexts

/-- Shorthand for a plain document. -/
def mkDoc (s : String) : Document :=
  ⟨s, [], none⟩

/-- A store of seventeen identically-embedded documents, dot-product
metric: every similarity score ties. -/
def c3Store : Store :=
  ⟨(List.range 17).map (fun i => mkDoc (toString i)), List.replicate 17 [0], .dotProduct⟩

/-! ### Theorems -/

/-- C1: the claim states that `split_text` never raises and that a piece
reaching the last, empty-string separator is emitted as an oversized
chunk.  In fact Python's `str.split` raises `ValueError: empty separator`
when the separator is `""`, and the claim's own example input — a run of
space-separated words longer than `chunk_size` (here `"aa bb cc"` with
`chunk_size = 3` and the default separators) — recurses each word into
depth 4, where `text.split("")` raises.  This theorem evaluates the model
at that failing input. -/
theorem splitText_raises_on_empty_separator :
    splitText 3 0 defaultSeparators "aa bb cc".toList = .error .valueError := by
  decide

/-- C2: the claim (and the spec, as a mandated hardening) requires
`add_documents` to reject an embedding whose dimensionality differs from
the established one.  The code performs no such check: adding a
3-dimensional embedding to a store holding a 2-dimensional one succeeds
and leaves the store with mixed dimensionalities. -/
theorem addDocuments_accepts_dimension_mismatch :
    (addDocuments ⟨[mkDoc "a"], [[1, 2]], .cosine⟩ [mkDoc "b"] [[1, 2, 3]]).1 = .ok () ∧
    ((addDocuments ⟨[mkDoc "a"], [[1, 2]], .cosine⟩ [mkDoc "b"] [[1, 2, 3]]).2.embeddings.map
      List.length) = [2, 3] := by
  exact ⟨rfl, rfl⟩

/-- C4: `add_documents` with sequences of different lengths raises
`ValueError` with the store untouched (the check precedes both `extend`
calls), so `document_count` is unchanged; with equal lengths both lists
are appended in lock-step at the end, preserving order. -/
theorem addDocuments_spec (s : Store) (docs : List Document) (embs : List (List ℝ)) :
    (docs.length ≠ embs.length →
      addDocuments s docs embs = (.error .valueError, s) ∧
      documentCount (addDocuments s docs embs).2 = documentCount s) ∧
    (docs.length = embs.length →
      addDocuments s docs embs =
        (.ok (), { s with documents := s.documents ++ docs,
                          embeddings := s.embeddings ++ embs })) := by
  constructor
  · intro h
    simp [addDocuments, h]
  · intro h
    simp [addDocuments, h]

/-- Witness for C4 at a concrete store: one document with no embedding is
rejected and the store is unchanged; matched lengths append. -/
theorem addDocuments_spec_witness :
    addDocuments ⟨[], [], .cosine⟩ [mkDoc "a"] [] = (.error .valueError, ⟨[], [], .cosine⟩) ∧
    addDocuments ⟨[], [], .cosine⟩ [mkDoc "a"] [[1]] = (.ok (), ⟨[mkDoc "a"], [[1]], .cosine⟩) := by
  refine ⟨((addDocuments_spec ⟨[], [], .cosine⟩ [mkDoc "a"] []).1 (by decide)).1, ?_⟩
  simpa using (addDocuments_spec ⟨[], [], .cosine⟩ [mkDoc "a"] [[1]]).2 rfl

/-- The overlap pass preserves the number of chunks. -/
theorem addOverlap_length (ov : Int) (chunks : List PyStr) :
    (addOverlap ov chunks).length = chunks.length := by
  unfold addOverlap
  split
  · match chunks with
    | [] => rfl
    | c0 :: rest => simp
  · rfl

/-- The overlap pass keeps chunk 0 unchanged. -/
theorem addOverlap_getD_zero (ov : Int) (chunks : List PyStr) :
    (addOverlap ov chunks).getD 0 [] = chunks.getD 0 [] := by
  unfold addOverlap
  split
  · match chunks with
    | [] => rfl
    | c0 :: rest => rfl
  · rfl

/-- The overlap pass rewrites chunk `i ≥ 1` from the pre-overlap chunks
`i-1` and `i`: a prefix is prepended exactly when the previous chunk is
strictly longer than the overlap. -/
theorem addOverlap_getD_succ (ov : Int) (chunks : List PyStr) (hov : 0 < ov)
    (i : Nat) (hi : 0 < i) (hilen : i < chunks.length) :
    (addOverlap ov chunks).getD i [] =
      (if ov < ((chunks.getD (i - 1) []).length : Int) then
        pyTakeLast ov.toNat (chunks.getD (i - 1) []) ++ chunks.getD i []
      else
        chunks.getD i []) := by
  match i, hi, chunks, hilen with
  | j + 1, _, c0 :: rest, hilen =>
    have hj : j < rest.length := by
      simpa using hilen
    have hjz : j < ((c0 :: rest).zip rest).length := by
      simp only [List.length_zip, List.length_cons]
      omega
    have hjc : j < (c0 :: rest).length := by
      simp only [List.length_cons]
      omega
    have hcond : ov > 0 ∧ (c0 :: rest).length > 1 := by
      refine ⟨hov, ?_⟩
      simp only [List.length_cons]
      omega
    have hrw : addOverlap ov (c0 :: rest) =
        c0 :: ((c0 :: rest).zip rest).map (fun pc =>
          if (pc.1.length : Int) > ov then pyTakeLast ov.toNat pc.1 ++ pc.2 else pc.2) := by
      unfold addOverlap
      rw [if_pos hcond]
    rw [hrw]
    simp only [List.getD_cons_succ, Nat.add_sub_cancel]
    rw [List.getD_eq_getElem _ _ (by simpa using hjz), List.getElem_map, List.getElem_zip,
      List.getD_eq_getElem _ _ hjc, List.getD_eq_getElem _ _ hj]

/-- C5 (counterexample): the claim asserts that chunk `i` always begins
with the last `min(chunk_overlap, len(chunk[i-1]))` characters of the
pre-overlap chunk `i-1`.  Splitting `"ab\n\ncd"` with `chunk_size = 2`
and `chunk_overlap = 5` yields the pre-overlap chunks `["ab", "cd"]` and
the final chunks `["ab", "cd"]`: the previous chunk (length 2) is not
longer than the overlap, so the code prepends nothing, and chunk 1
(`"cd"`) does not begin with the required `min(5, 2) = 2` characters
`"ab"`. -/
theorem splitText_overlap_min_refuted :
    splitTextRecursive 2 defaultSeparators (defaultSeparators.length + 1)
        "ab\n\ncd".toList 0 = .ok ["ab".toList, "cd".toList] ∧
    splitText 2 5 defaultSeparators "ab\n\ncd".toList = .ok ["ab".toList, "cd".toList] ∧
    (0 : Int) < 5 ∧ 1 < (["ab".toList, "cd".toList] : List PyStr).length ∧
    ¬ ("cd".toList.take (min 5 "ab".toList.length) =
        pyTakeLast (min 5 "ab".toList.length) "ab".toList) := by
  decide

/-- C5 (amended): when the recursive split succeeds and
`chunk_overlap > 0`, the final chunks are the overlap pass of the
pre-overlap chunks; chunk 0 is unchanged, the chunk count is unchanged,
and for `i ≥ 1` chunk `i` is the last `chunk_overlap` characters of the
pre-overlap chunk `i-1` prepended directly to the pre-overlap chunk `i`
when chunk `i-1` is strictly longer than `chunk_overlap`, and the
unchanged pre-overlap chunk `i` otherwise. -/
theorem splitText_overlap_spec (size ov : Int) (seps : List PyStr) (text : PyStr)
    (chunks : List PyStr)
    (h : splitTextRecursive size seps (seps.length + 1) text 0 = .ok chunks)
    (hov : 0 < ov) :
    splitText size ov seps text = .ok (addOverlap ov chunks) ∧
    (addOverlap ov chunks).length = chunks.length ∧
    (addOverlap ov chunks).getD 0 [] = chunks.getD 0 [] ∧
    ∀ i, 0 < i → i < chunks.length →
      ((ov < ((chunks.getD (i - 1) []).length : Int) →
        (addOverlap ov chunks).getD i [] =
          pyTakeLast ov.toNat (chunks.getD (i - 1) []) ++ chunks.getD i []) ∧
       (((chunks.getD (i - 1) []).length : Int) ≤ ov →
        (addOverlap ov chunks).getD i [] = chunks.getD i [])) := by
  refine ⟨by simp [splitText, h, Except.map], addOverlap_length ov chunks,
    addOverlap_getD_zero ov chunks, fun i hi hilen => ⟨fun hlong => ?_, fun hshort => ?_⟩⟩
  · rw [addOverlap_getD_succ ov chunks hov i hi hilen, if_pos hlong]
  · rw [addOverlap_getD_succ ov chunks hov i hi hilen, if_neg (by omega)]

/-- Witness for C5 (amended) at the concrete split of `"ab\n\ncd"` with
`chunk_size = 2`, `chunk_overlap = 5`. -/
theorem splitText_overlap_spec_witness :
    splitText 2 5 defaultSeparators "ab\n\ncd".toList =
      .ok (addOverlap 5 ["ab".toList, "cd".toList]) ∧
    (addOverlap 5 ["ab".toList, "cd".toList]).getD 1 [] = "cd".toList := by
  have h := splitText_overlap_spec 2 5 defaultSeparators "ab\n\ncd".toList
    ["ab".toList, "cd".toList] (by decide) (by decide)
  refine ⟨h.1, ?_⟩
  have := (h.2.2.2 1 (by decide) (by decide)).2 (by decide)
  simpa using this

/-- Inserting into a sorted index list is a permutation of consing. -/
theorem npyInsert_perm (lt : Nat → Nat → Bool) (x : Nat) (l : List Nat) :
    List.Perm (npyInsert lt x l) (x :: l) := by
  induction l with
  | nil => exact List.Perm.refl _
  | cons y ys ih =>
    unfold npyInsert
    split
    · exact List.Perm.refl _
    · exact (List.Perm.cons y ih).trans (List.Perm.swap x y ys)

/-- The insertion-sort fold permutes the processed elements into the
accumulator. -/
theorem npyInsertSort_go_perm (lt : Nat → Nat → Bool) (l acc : List Nat) :
    List.Perm (l.foldl (fun a x => npyInsert lt x a) acc) (acc ++ l) := by
  induction l generalizing acc with
  | nil => simp
  | cons x t ih =>
    exact ((ih (npyInsert lt x acc)).trans
      ((npyInsert_perm lt x acc).append_right t)).trans List.perm_middle.symm

/-- The segment insertion sort is a permutation. -/
theorem npyInsertSort_perm (lt : Nat → Nat → Bool) (l : List Nat) :
    List.Perm (npyInsertSort lt l) l := by
  simpa [npyInsertSort] using npyInsertSort_go_perm lt l []

/-- Sorting a segment in place permutes the index array. -/
theorem spliceSorted_perm (lt : Nat → Nat → Bool) (ts : List Nat) (pl pr : Nat) :
    List.Perm (spliceSorted lt ts pl pr) ts := by
  unfold spliceSorted
  rw [List.append_assoc]
  have h1 : List.Perm
      (npyInsertSort lt ((ts.drop pl).take (pr + 1 - pl)) ++ (ts.drop pl).drop (pr + 1 - pl))
      ((ts.drop pl).take (pr + 1 - pl) ++ (ts.drop pl).drop (pr + 1 - pl)) :=
    (npyInsertSort_perm lt _).append_right _
  rw [List.take_append_drop] at h1
  have h2 := List.Perm.append_left (ts.take pl) h1
  rw [List.take_append_drop] at h2
  exact h2

/-- A value read from a bounded index array is bounded. -/
theorem getD_lt_of_forall {m : Nat} {l : List Nat} (h : ∀ x ∈ l, x < m) (hm : 0 < m)
    (i : Nat) : l.getD i 0 < m := by
  by_cases hi : i < l.length
  · rw [List.getD_eq_getElem _ _ hi]
    exact h _ (List.getElem_mem hi)
  · rw [List.getD_eq_default _ _ (le_of_not_lt hi)]
    exact hm

/-- Writing a bounded value keeps the index array bounded. -/
theorem set_good {m : Nat} {l : List Nat} (h : ∀ x ∈ l, x < m) {v : Nat} (hv : v < m)
    (i : Nat) : ∀ x ∈ l.set i v, x < m := by
  intro x hx
  rcases List.mem_or_eq_of_mem_set hx with h1 | h1
  · exact h x h1
  · exact h1 ▸ hv

theorem listSwap_length (l : List Nat) (i j : Nat) : (listSwap l i j).length = l.length := by
  simp [listSwap]

theorem listSwap_good {m : Nat} {l : List Nat} (h : ∀ x ∈ l, x < m) (hm : 0 < m)
    (i j : Nat) : ∀ x ∈ listSwap l i j, x < m := by
  unfold listSwap
  exact set_good (set_good h (getD_lt_of_forall h hm j) i) (getD_lt_of_forall h hm i) j

theorem partLoop_length (lt : Nat → Nat → Bool) (vp : Nat) (fuel : Nat) :
    ∀ (ts : List Nat) (pi pj : Nat), ((partLoop lt vp fuel ts pi pj).1).length = ts.length := by
  induction fuel with
  | zero => intro ts pi pj; rfl
  | succ f ih =>
    intro ts pi pj
    unfold partLoop
    dsimp only
    split
    · rfl
    · rw [ih]
      exact listSwap_length ts _ _

theorem partLoop_good (lt : Nat → Nat → Bool) (vp : Nat) {m : Nat} (hm : 0 < m) (fuel : Nat) :
    ∀ (ts : List Nat) (pi pj : Nat), (∀ x ∈ ts, x < m) →
      ∀ x ∈ (partLoop lt vp fuel ts pi pj).1, x < m := by
  induction fuel with
  | zero => intro ts pi pj h; exact h
  | succ f ih =>
    intro ts pi pj h
    unfold partLoop
    dsimp only
    split
    · exact h
    · exact ih _ _ _ (listSwap_good h hm _ _)

theorem hsSift_length (lt : Nat → Nat → Bool) (fuel : Nat) :
    ∀ (l : List Nat) (tmp last i j : Nat), (hsSift lt fuel l tmp last i j).length = l.length := by
  induction fuel with
  | zero => intro l tmp last i j; simp [hsSift, set1]
  | succ f ih =>
    intro l tmp last i j
    unfold hsSift
    dsimp only
    split
    · split <;> split <;> first
        | (rw [ih]; simp [set1])
        | simp [set1]
    · simp [set1]

theorem hsSift_good (lt : Nat → Nat → Bool) {m : Nat} (hm : 0 < m) (fuel : Nat) :
    ∀ (l : List Nat) (tmp last i j : Nat), (∀ x ∈ l, x < m) → tmp < m →
      ∀ x ∈ hsSift lt fuel l tmp last i j, x < m := by
  induction fuel with
  | zero => intro l tmp last i j h htmp; exact set_good h htmp _
  | succ f ih =>
    intro l tmp last i j h htmp
    unfold hsSift
    dsimp only
    simp only [set1, get1]
    split
    · split <;> split <;> first
        | exact ih _ _ _ _ _ (set_good h (getD_lt_of_forall h hm _) _) htmp
        | exact set_good h htmp _
    · exact set_good h htmp _

theorem hsBuild_length (lt : Nat → Nat → Bool) (n : Nat) :
    ∀ (l0 : Nat) (l : List Nat), (hsBuild lt n l0 l).length = l.length := by
  intro l0
  induction l0 with
  | zero => intro l; rfl
  | succ k ih =>
    intro l
    unfold hsBuild
    rw [ih, hsSift_length]

theorem hsBuild_good (lt : Nat → Nat → Bool) (n : Nat) {m : Nat} (hm : 0 < m) :
    ∀ (l0 : Nat) (l : List Nat), (∀ x ∈ l, x < m) → ∀ x ∈ hsBuild lt n l0 l, x < m := by
  intro l0
  induction l0 with
  | zero => intro l h; exact h
  | succ k ih =>
    intro l h
    unfold hsBuild
    exact ih _ (hsSift_good lt hm _ _ _ _ _ _ h (getD_lt_of_forall h hm _))

theorem hsExtract_length (lt : Nat → Nat → Bool) :
    ∀ (n : Nat) (l : List Nat), (hsExtract lt n l).length = l.length := by
  intro n
  induction n using Nat.strong_induction_on with
  | _ n ih =>
    intro l
    match n with
    | 0 => rfl
    | 1 => rfl
    | k + 2 =>
      unfold hsExtract
      dsimp only
      rw [ih (k + 1) (by omega), hsSift_length]
      simp [set1]

theorem hsExtract_good (lt : Nat → Nat → Bool) {m : Nat} (hm : 0 < m) :
    ∀ (n : Nat) (l : List Nat), (∀ x ∈ l, x < m) → ∀ x ∈ hsExtract lt n l, x < m := by
  intro n
  induction n using Nat.strong_induction_on with
  | _ n ih =>
    intro l h
    match n with
    | 0 => exact h
    | 1 => exact h
    | k + 2 =>
      unfold hsExtract
      dsimp only
      exact ih (k + 1) (by omega) _
        (hsSift_good lt hm _ _ _ _ _ _
          (set_good h (getD_lt_of_forall h hm _) _) (getD_lt_of_forall h hm _))

theorem aheapsortList_length (lt : Nat → Nat → Bool) (l : List Nat) :
    (aheapsortList lt l).length = l.length := by
  unfold aheapsortList
  rw [hsExtract_length, hsBuild_length]

theorem aheapsortList_good (lt : Nat → Nat → Bool) {m : Nat} (hm : 0 < m) (l : List Nat)
    (h : ∀ x ∈ l, x < m) : ∀ x ∈ aheapsortList lt l, x < m := by
  unfold aheapsortList
  exact hsExtract_good lt hm _ _ (hsBuild_good lt _ hm _ _ h)

theorem heapsortSeg_length (lt : Nat → Nat → Bool) (ts : List Nat) (pl pr : Nat) :
    (heapsortSeg lt ts pl pr).length = ts.length := by
  unfold heapsortSeg
  simp only [List.length_append, aheapsortList_length, List.length_take, List.length_drop]
  omega

theorem heapsortSeg_good (lt : Nat → Nat → Bool) {m : Nat} (hm : 0 < m) (ts : List Nat)
    (pl pr : Nat) (h : ∀ x ∈ ts, x < m) : ∀ x ∈ heapsortSeg lt ts pl pr, x < m := by
  unfold heapsortSeg
  intro x hx
  rcases List.mem_append.mp hx with h1 | h1
  · rcases List.mem_append.mp h1 with h2 | h2
    · exact h x (List.mem_of_mem_take h2)
    · exact aheapsortList_good lt hm _
        (fun y hy => h y (List.mem_of_mem_drop (List.mem_of_mem_take hy))) x h2
  · exact h x (List.mem_of_mem_drop (List.mem_of_mem_drop h1))

/-- A conditional median-of-three swap preserves the array length. -/
theorem ifSwap_length (c : Prop) [Decidable c] (a : List Nat) (i j : Nat) :
    (if c then listSwap a i j else a).length = a.length := by
  split
  · exact listSwap_length a i j
  · rfl

/-- A conditional median-of-three swap preserves boundedness. -/
theorem ifSwap_good (c : Prop) [Decidable c] {m : Nat} (hm : 0 < m) {a : List Nat}
    (h : ∀ x ∈ a, x < m) (i j : Nat) : ∀ x ∈ (if c then listSwap a i j else a), x < m := by
  split
  · exact listSwap_good h hm i j
  · exact h

theorem spliceSorted_length (lt : Nat → Nat → Bool) (ts : List Nat) (pl pr : Nat) :
    (spliceSorted lt ts pl pr).length = ts.length :=
  (spliceSorted_perm lt ts pl pr).length_eq

theorem spliceSorted_good (lt : Nat → Nat → Bool) {m : Nat} (ts : List Nat)
    (pl pr : Nat) (h : ∀ x ∈ ts, x < m) : ∀ x ∈ spliceSorted lt ts pl pr, x < m :=
  fun x hx => h x (((spliceSorted_perm lt ts pl pr).mem_iff).mp hx)

theorem medianOf3_length (lt : Nat → Nat → Bool) (ts : List Nat) (pl pr pm : Nat) :
    (medianOf3 lt ts pl pr pm).length = ts.length := by
  unfold medianOf3
  rw [ifSwap_length, ifSwap_length, ifSwap_length]

theorem medianOf3_good (lt : Nat → Nat → Bool) {m : Nat} (hm : 0 < m) {ts : List Nat}
    (h : ∀ x ∈ ts, x < m) (pl pr pm : Nat) : ∀ x ∈ medianOf3 lt ts pl pr pm, x < m := by
  unfold medianOf3
  exact ifSwap_good _ hm (ifSwap_good _ hm (ifSwap_good _ hm h _ _) _ _) _ _

theorem partitionStep_length (lt : Nat → Nat → Bool) (ts : List Nat) (pl pr : Nat) :
    ((partitionStep lt ts pl pr).1).length = ts.length := by
  unfold partitionStep
  dsimp only
  rw [listSwap_length, partLoop_length, listSwap_length, medianOf3_length]

theorem partitionStep_good (lt : Nat → Nat → Bool) {m : Nat} (hm : 0 < m) {ts : List Nat}
    (h : ∀ x ∈ ts, x < m) (pl pr : Nat) : ∀ x ∈ (partitionStep lt ts pl pr).1, x < m := by
  unfold partitionStep
  dsimp only
  exact listSwap_good
    (partLoop_good lt _ hm _ _ _ _ (listSwap_good (medianOf3_good lt hm h _ _ _) hm _ _)) hm _ _

theorem aqsortLoop_length (lt : Nat → Nat → Bool) (fuel : Nat) :
    ∀ (ts : List Nat) (pl pr : Nat) (dl : Int) (stack : List (Nat × Nat)),
      (aqsortLoop lt fuel ts pl pr dl stack).length = ts.length := by
  induction fuel with
  | zero => intro ts pl pr dl stack; rfl
  | succ f ih =>
    intro ts pl pr dl stack
    unfold aqsortLoop
    dsimp only
    split
    · split
      · match stack with
        | [] => exact heapsortSeg_length lt ts pl pr
        | (pl', pr') :: rest => rw [ih, heapsortSeg_length]
      · split
        · rw [ih, partitionStep_length]
        · rw [ih, partitionStep_length]
    · match stack with
      | [] => exact spliceSorted_length lt ts pl pr
      | (pl', pr') :: rest => rw [ih, spliceSorted_length]

theorem aqsortLoop_good (lt : Nat → Nat → Bool) {m : Nat} (hm : 0 < m) (fuel : Nat) :
    ∀ (ts : List Nat) (pl pr : Nat) (dl : Int) (stack : List (Nat × Nat)),
      (∀ x ∈ ts, x < m) → ∀ x ∈ aqsortLoop lt fuel ts pl pr dl stack, x < m := by
  induction fuel with
  | zero => intro ts pl pr dl stack h; exact h
  | succ f ih =>
    intro ts pl pr dl stack h
    unfold aqsortLoop
    dsimp only
    split
    · split
      · match stack with
        | [] => exact heapsortSeg_good lt hm ts pl pr h
        | (pl', pr') :: rest => exact ih _ _ _ _ _ (heapsortSeg_good lt hm ts pl pr h)
      · split
        · exact ih _ _ _ _ _ (partitionStep_good lt hm h pl pr)
        · exact ih _ _ _ _ _ (partitionStep_good lt hm h pl pr)
    · match stack with
      | [] => exact spliceSorted_good lt ts pl pr h
      | (pl', pr') :: rest => exact ih _ _ _ _ _ (spliceSorted_good lt ts pl pr h)

/-- Every index produced by the modelled `np.argsort` is a valid position
of the scored array. -/
theorem npyArgsortBy_mem (lt : Nat → Nat → Bool) (n : Nat) :
    ∀ x ∈ npyArgsortBy lt n, x < n := by
  match n with
  | 0 =>
    intro x hx
    simp [npyArgsortBy, aqsortLoop, spliceSorted, npyInsertSort] at hx
  | k + 1 =>
    exact aqsortLoop_good lt (Nat.succ_pos k) _ _ _ _ _ _
      (fun x hx => List.mem_range.mp hx)

/-- The modelled `np.argsort` returns one index per scored entry. -/
theorem npyArgsortBy_length (lt : Nat → Nat → Bool) (n : Nat) :
    (npyArgsortBy lt n).length = n := by
  unfold npyArgsortBy
  rw [aqsortLoop_length, List.length_range]

/-- Every metric branch scores each stored embedding once, in storage
order. -/
theorem computeSims_length (s : Store) (q : List ℝ) :
    (computeSims s q).length = s.embeddings.length := by
  rcases s with ⟨docs, embs, metric⟩
  cases metric <;> simp [computeSims]

theorem pyTake_length_of_nonneg (k : Int) (hk : 0 ≤ k) (l : List α) :
    (pyTake k l).length = min k.toNat l.length := by
  unfold pyTake
  rw [if_neg (not_lt.mpr hk)]
  exact List.length_take _ _

theorem pyTake_all (k : Int) (l : List α) (h : (l.length : Int) ≤ k) : pyTake k l = l := by
  unfold pyTake
  rw [if_neg (by omega)]
  exact List.take_of_length_le (by omega)

/-- C6: with a threshold, entries scoring below it are discarded before
ranking — every returned pair scores at least the threshold, under any
metric; without one, nothing is discarded before the top-`k` cut, so
exactly `min k document_count` results survive it. -/
theorem similaritySearch_threshold_spec (s : Store) (q : List ℝ) (k : Int) (t : ℝ)
    (hm : s.documents.length = s.embeddings.length) (hk : 0 ≤ k) :
    (∀ p ∈ similaritySearch s q k (some t), t ≤ p.2) ∧
    (similaritySearch s q k none).length = min k.toNat s.documents.length := by
  by_cases hemb : s.embeddings = []
  · constructor
    · intro p hp
      simp [similaritySearch, hemb] at hp
    · have hd : s.documents.length = 0 := by
        rw [hm, hemb]
        rfl
      simp [similaritySearch, hemb, hd]
  · constructor
    · intro p hp
      rw [similaritySearch, if_neg hemb] at hp
      dsimp only at hp
      rcases List.mem_map.mp hp with ⟨i, hi, hpi⟩
      have hp2 : p.2 = (computeSims s q).getD i 0 := by
        rw [← hpi]
      rw [hp2]
      have hi2 : i ∈ (npyArgsort ((((List.range (computeSims s q).length).filter
          (fun j => decide ((computeSims s q).getD j 0 ≥ t))).map
            (fun j => (computeSims s q).getD j 0)).map Neg.neg)).map
          (fun p0 => ((List.range (computeSims s q).length).filter
            (fun j => decide ((computeSims s q).getD j 0 ≥ t))).getD p0 0) :=
        List.mem_of_mem_take hi
      rcases List.mem_map.mp hi2 with ⟨p0, hp0, hip0⟩
      have hp0lt : p0 < ((List.range (computeSims s q).length).filter
          (fun j => decide ((computeSims s q).getD j 0 ≥ t))).length := by
        have := npyArgsortBy_mem _ _ _ hp0
        simpa using this
      have hifilter : i ∈ (List.range (computeSims s q).length).filter
          (fun j => decide ((computeSims s q).getD j 0 ≥ t)) := by
        rw [← hip0, List.getD_eq_getElem _ _ hp0lt]
        exact List.getElem_mem hp0lt
      have := (List.mem_filter.mp hifilter).2
      simpa using this
    · rw [similaritySearch, if_neg hemb]
      dsimp only
      rw [List.length_map, pyTake_length_of_nonneg k hk]
      unfold npyArgsort
      rw [npyArgsortBy_length, List.length_map, computeSims_length, hm]

/-- Witness for C6 at a one-document store under the dot-product metric:
applying the theorem at `k = 3`, threshold `0`. -/
theorem similaritySearch_threshold_spec_witness :
    (∀ p ∈ similaritySearch ⟨[mkDoc "a"], [[1]], .dotProduct⟩ [1] 3 (some 0), (0 : ℝ) ≤ p.2) ∧
    (similaritySearch ⟨[mkDoc "a"], [[1]], .dotProduct⟩ [1] 3 none).length = min 3 1 := by
  have h := similaritySearch_threshold_spec ⟨[mkDoc "a"], [[1]], .dotProduct⟩ [1] 3 0
    (by simp) (by norm_num)
  exact ⟨h.1, by simpa using h.2⟩

theorem dot_as_sum (a : List ℝ) : ∀ b : List ℝ,
    dot a b = ∑ i ∈ Finset.range (min a.length b.length), a.getD i 0 * b.getD i 0 := by
  induction a with
  | nil => intro b; simp [dot]
  | cons x xs ih =>
    intro b
    match b with
    | [] => simp [dot]
    | y :: ys =>
      have hmin : min (x :: xs).length (y :: ys).length = min xs.length ys.length + 1 := by
        simp [Nat.succ_min_succ]
      rw [hmin, Finset.sum_range_succ']
      simp only [List.getD_cons_succ, List.getD_cons_zero]
      have : dot (x :: xs) (y :: ys) = x * y + dot xs ys := by
        simp [dot]
      rw [this, ih ys]
      ring

theorem sumSq_as_sum (a : List ℝ) :
    sumSq a = ∑ i ∈ Finset.range a.length, (a.getD i 0) ^ 2 := by
  induction a with
  | nil => simp [sumSq]
  | cons x xs ih =>
    rw [List.length_cons, Finset.sum_range_succ']
    simp only [List.getD_cons_succ, List.getD_cons_zero]
    have : sumSq (x :: xs) = x ^ 2 + sumSq xs := by
      simp [sumSq]
    rw [this, ih]
    ring

theorem sumSq_nonneg (a : List ℝ) : 0 ≤ sumSq a := by
  rw [sumSq_as_sum]
  exact Finset.sum_nonneg (fun i _ => sq_nonneg _)

theorem dot_sq_le (a b : List ℝ) : (dot a b) ^ 2 ≤ sumSq a * sumSq b := by
  rw [dot_as_sum, sumSq_as_sum, sumSq_as_sum]
  have hcs := Finset.sum_mul_sq_le_sq_mul_sq (Finset.range (min a.length b.length))
    (fun i => a.getD i 0) (fun i => b.getD i 0)
  refine hcs.trans (mul_le_mul ?_ ?_ ?_ ?_)
  · exact Finset.sum_le_sum_of_subset_of_nonneg
      (Finset.range_subset.mpr (min_le_left _ _)) (fun i _ _ => sq_nonneg _)
  · exact Finset.sum_le_sum_of_subset_of_nonneg
      (Finset.range_subset.mpr (min_le_right _ _)) (fun i _ _ => sq_nonneg _)
  · exact Finset.sum_nonneg (fun i _ => sq_nonneg _)
  · exact Finset.sum_nonneg (fun i _ => sq_nonneg _)

/-- Cauchy–Schwarz for the modelled `np.dot` and `np.linalg.norm`. -/
theorem abs_dot_le (a b : List ℝ) : |dot a b| ≤ l2norm a * l2norm b := by
  have h1 : |dot a b| = Real.sqrt ((dot a b) ^ 2) := (Real.sqrt_sq_eq_abs _).symm
  rw [h1]
  unfold l2norm
  rw [← Real.sqrt_mul (sumSq_nonneg a)]
  exact Real.sqrt_le_sqrt (dot_sq_le a b)

theorem dot_map_div_left (c : ℝ) (a : List ℝ) : ∀ b : List ℝ,
    dot (a.map (· / c)) b = dot a b / c := by
  induction a with
  | nil => intro b; simp [dot]
  | cons x xs ih =>
    intro b
    match b with
    | [] => simp [dot]
    | y :: ys =>
      have h1 : dot ((x :: xs).map (· / c)) (y :: ys) = x / c * y + dot (xs.map (· / c)) ys := by
        simp [dot]
      have h2 : dot (x :: xs) (y :: ys) = x * y + dot xs ys := by
        simp [dot]
      rw [h1, h2, ih ys]
      ring

theorem dot_map_div_right (c : ℝ) (a : List ℝ) : ∀ b : List ℝ,
    dot a (b.map (· / c)) = dot a b / c := by
  induction a with
  | nil => intro b; simp [dot]
  | cons x xs ih =>
    intro b
    match b with
    | [] => simp [dot]
    | y :: ys =>
      have h1 : dot (x :: xs) ((y :: ys).map (· / c)) = x * (y / c) + dot xs (ys.map (· / c)) := by
        simp [dot]
      have h2 : dot (x :: xs) (y :: ys) = x * y + dot xs ys := by
        simp [dot]
      rw [h1, h2, ih ys]
      ring

theorem sumSq_eq_zero_forall (a : List ℝ) (h : sumSq a = 0) : ∀ x ∈ a, x = 0 := by
  induction a with
  | nil => intro x hx; simp at hx
  | cons y ys ih =>
    have hsum : y ^ 2 + sumSq ys = 0 := by
      have : sumSq (y :: ys) = y ^ 2 + sumSq ys := by
        simp [sumSq]
      rw [← this, h]
    have hys : sumSq ys = 0 := by
      nlinarith [sq_nonneg y, sumSq_nonneg ys]
    have hy2 : y ^ 2 = 0 := by
      nlinarith [sq_nonneg y, sumSq_nonneg ys]
    intro x hx
    rcases List.mem_cons.mp hx with h1 | h1
    · rw [h1]
      exact (pow_eq_zero_iff two_ne_zero).mp hy2
    · exact ih hys x h1

theorem l2norm_zero_forall (a : List ℝ) (h : l2norm a = 0) : ∀ x ∈ a, x = 0 := by
  apply sumSq_eq_zero_forall
  have := (Real.sqrt_eq_zero (sumSq_nonneg a)).mp h
  exact this

theorem dot_zero_left (a : List ℝ) (ha : ∀ x ∈ a, x = 0) : ∀ b : List ℝ, dot a b = 0 := by
  induction a with
  | nil => intro b; simp [dot]
  | cons x xs ih =>
    intro b
    match b with
    | [] => simp [dot]
    | y :: ys =>
      have h2 : dot (x :: xs) (y :: ys) = x * y + dot xs ys := by
        simp [dot]
      rw [h2, ha x (by simp), ih (fun z hz => ha z (by simp [hz])) ys]
      ring

theorem dot_zero_right (a : List ℝ) : ∀ b : List ℝ, (∀ x ∈ b, x = 0) → dot a b = 0 := by
  induction a with
  | nil => intro b _; simp [dot]
  | cons x xs ih =>
    intro b hb
    match b with
    | [] => simp [dot]
    | y :: ys =>
      have h2 : dot (x :: xs) (y :: ys) = x * y + dot xs ys := by
        simp [dot]
      rw [h2, hb y (by simp), ih ys (fun z hz => hb z (by simp [hz]))]
      ring

/-- A zero-norm stored vector is the zero vector over `ℝ`, and its
cosine row scores `0` against any (normalized or not) query. -/
theorem cosine_entry_zero (q e : List ℝ) (hn : l2norm e = 0) :
    dot (e.map (· / (if l2norm e = 0 then 1 else l2norm e)))
      (if l2norm q > 0 then q.map (· / l2norm q) else q) = 0 := by
  apply dot_zero_left
  intro x hx
  rcases List.mem_map.mp hx with ⟨y, hy, hxy⟩
  rw [← hxy, l2norm_zero_forall e hn y hy]
  simp

/-- One cosine row of `similarity_search`: the normalized dot product
lies in `[-1, 1]`, including the degenerate zero-norm cases. -/
theorem cosine_entry_bound (q e : List ℝ) :
    |dot (e.map (· / (if l2norm e = 0 then 1 else l2norm e)))
      (if l2norm q > 0 then q.map (· / l2norm q) else q)| ≤ 1 := by
  by_cases hn : l2norm e = 0
  · rw [cosine_entry_zero q e hn]
    norm_num
  · rw [if_neg hn]
    have hnpos : 0 < l2norm e := lt_of_le_of_ne (Real.sqrt_nonneg _) (Ne.symm hn)
    by_cases hq : l2norm q > 0
    · rw [if_pos hq, dot_map_div_left, dot_map_div_right, div_div, abs_div]
      have hpos : 0 < l2norm q * l2norm e := mul_pos hq hnpos
      rw [abs_of_pos hpos, div_le_one hpos]
      linarith [abs_dot_le e q, mul_comm (l2norm e) (l2norm q)]
    · rw [if_neg hq]
      have hq0 : l2norm q = 0 := le_antisymm (not_lt.mp hq) (Real.sqrt_nonneg _)
      rw [dot_zero_right _ _ (l2norm_zero_forall q hq0)]
      norm_num

/-- Under the cosine metric every computed score lies in `[-1, 1]`. -/
theorem computeSims_cosine_bounds (s : Store) (q : List ℝ)
    (hc : s.similarityMetric = .cosine) :
    ∀ x ∈ computeSims s q, -1 ≤ x ∧ x ≤ 1 := by
  rcases s with ⟨docs, embs, metric⟩
  simp only at hc
  subst hc
  intro x hx
  simp only [computeSims] at hx
  rcases List.mem_map.mp hx with ⟨e, _, hxe⟩
  rw [← hxe]
  exact abs_le.mp (cosine_entry_bound q e)

/-- Every score a `similarity_search` result carries is a `getD` read of
the computed score list. -/
theorem similaritySearch_snd_eq (s : Store) (q : List ℝ) (k : Int) (th : Option ℝ) :
    ∀ p ∈ similaritySearch s q k th, ∃ i, p.2 = (computeSims s q).getD i 0 := by
  intro p hp
  by_cases hemb : s.embeddings = []
  · simp [similaritySearch, hemb] at hp
  · rw [similaritySearch, if_neg hemb] at hp
    match th with
    | some t =>
      dsimp only at hp
      rcases List.mem_map.mp hp with ⟨i, _, hpi⟩
      exact ⟨i, by rw [← hpi]⟩
    | none =>
      dsimp only at hp
      rcases List.mem_map.mp hp with ⟨i, _, hpi⟩
      exact ⟨i, by rw [← hpi]⟩

/-- C7: under the cosine metric no division by zero occurs — a zero-norm
query skips normalization, a zero-norm stored embedding has its norm
replaced by `1.0` and, being the zero vector, scores `0` against any
query — and every returned cosine score lies in `[-1, 1]`. -/
theorem similaritySearch_cosine_safe (s : Store) (q : List ℝ) (k : Int) (th : Option ℝ)
    (hc : s.similarityMetric = .cosine) :
    (∀ p ∈ similaritySearch s q k th, -1 ≤ p.2 ∧ p.2 ≤ 1) ∧
    (∀ i, i < s.embeddings.length → l2norm (s.embeddings.getD i []) = 0 →
      (computeSims s q).getD i 0 = 0) := by
  constructor
  · intro p hp
    rcases similaritySearch_snd_eq s q k th p hp with ⟨i, hpi⟩
    rw [hpi]
    by_cases hi : i < (computeSims s q).length
    · rw [List.getD_eq_getElem _ _ hi]
      exact computeSims_cosine_bounds s q hc _ (List.getElem_mem hi)
    · rw [List.getD_eq_default _ _ (le_of_not_lt hi)]
      norm_num
  · intro i hi hzero
    rcases s with ⟨docs, embs, metric⟩
    simp only at hc hi hzero
    subst hc
    have hi2 : i < (computeSims ⟨docs, embs, .cosine⟩ q).length := by
      rw [computeSims_length]
      exact hi
    rw [List.getD_eq_getElem _ _ hi2]
    simp only [computeSims, List.getElem_map]
    dsimp only
    rw [List.getD_eq_getElem _ _ hi] at hzero
    exact cosine_entry_zero q embs[i] hzero

/-- Witness for C7 at a store holding the zero vector, queried with
`[1]`: all returned scores lie in `[-1, 1]` and the zero-norm entry
scores `0`. -/
theorem similaritySearch_cosine_safe_witness :
    (∀ p ∈ similaritySearch ⟨[mkDoc "a"], [[0]], .cosine⟩ [1] 4 none,
      -1 ≤ p.2 ∧ p.2 ≤ 1) ∧
    (computeSims ⟨[mkDoc "a"], [[0]], .cosine⟩ [1]).getD 0 0 = 0 := by
  have h := similaritySearch_cosine_safe ⟨[mkDoc "a"], [[0]], .cosine⟩ [1] 4 none rfl
  refine ⟨h.1, h.2 0 (by norm_num) ?_⟩
  simp [l2norm, sumSq]

/-- Inserting a fresh index (larger than every index already placed)
keeps the list sorted by the lexicographic key (value, then original
position) — numpy's insertion sort places equal values in arrival
order. -/
theorem npyInsert_pairwise {α : Type} [LinearOrder α] (v : Nat → α) (lt : Nat → Nat → Bool)
    (hlt : ∀ a b, lt a b = true ↔ v a < v b) (x : Nat) (l : List Nat)
    (hl : l.Pairwise (fun a b => v a < v b ∨ (v a = v b ∧ a < b)))
    (hless : ∀ y ∈ l, y < x) :
    (npyInsert lt x l).Pairwise (fun a b => v a < v b ∨ (v a = v b ∧ a < b)) := by
  induction l with
  | nil => simp [npyInsert]
  | cons y ys ih =>
    rw [npyInsert]
    by_cases hxy : lt x y = true
    · rw [if_pos hxy]
      have hvxy : v x < v y := (hlt x y).mp hxy
      refine List.Pairwise.cons ?_ hl
      intro z hz
      rcases List.mem_cons.mp hz with h1 | h1
      · left
        rw [h1]
        exact hvxy
      · rcases (List.pairwise_cons.mp hl).1 z h1 with h2 | h2
        · left
          exact lt_trans hvxy h2
        · left
          exact lt_of_lt_of_le hvxy (le_of_eq h2.1)
    · rw [if_neg hxy]
      have hvyx : v y ≤ v x :=
        not_lt.mp (fun hc => hxy ((hlt x y).mpr hc))
      refine List.Pairwise.cons ?_
        (ih (List.pairwise_cons.mp hl).2 (fun z hz => hless z (by simp [hz])))
      intro z hz
      have hz2 : z = x ∨ z ∈ ys := by
        simpa using (npyInsert_perm lt x ys).mem_iff.mp hz
      rcases hz2 with h1 | h1
      · rcases lt_or_eq_of_le hvyx with h2 | h2
        · left
          rw [h1]
          exact h2
        · right
          rw [h1]
          exact ⟨h2, hless y (by simp)⟩
      · exact (List.pairwise_cons.mp hl).1 z h1

/-- The left-to-right insertion-sort fold keeps the accumulator sorted by
the lexicographic (value, position) key when indices arrive in increasing
position order. -/
theorem npyInsertSort_go_pairwise {α : Type} [LinearOrder α] (v : Nat → α)
    (lt : Nat → Nat → Bool) (hlt : ∀ a b, lt a b = true ↔ v a < v b) :
    ∀ (l acc : List Nat),
      acc.Pairwise (fun a b => v a < v b ∨ (v a = v b ∧ a < b)) →
      (∀ y ∈ acc, ∀ x ∈ l, y < x) → l.Pairwise (· < ·) →
      (l.foldl (fun a x => npyInsert lt x a) acc).Pairwise
        (fun a b => v a < v b ∨ (v a = v b ∧ a < b)) := by
  intro l
  induction l with
  | nil => intro acc hacc _ _; exact hacc
  | cons x t ih =>
    intro acc hacc hcross hl
    show (t.foldl (fun a x => npyInsert lt x a) (npyInsert lt x acc)).Pairwise _
    apply ih
    · exact npyInsert_pairwise v lt hlt x acc hacc (fun y hy => hcross y hy x (by simp))
    · intro y hy z hz
      have hy2 : y = x ∨ y ∈ acc := by
        simpa using (npyInsert_perm lt x acc).mem_iff.mp hy
      rcases hy2 with h1 | h1
      · rw [h1]
        exact (List.pairwise_cons.mp hl).1 z hz
      · exact hcross y h1 z (by simp [hz])
    · exact (List.pairwise_cons.mp hl).2

/-- numpy's insertion sort of the identity index array: sorted by value
with ties in index order. -/
theorem npyInsertSort_range_pairwise {α : Type} [LinearOrder α] (v : Nat → α)
    (lt : Nat → Nat → Bool) (hlt : ∀ a b, lt a b = true ↔ v a < v b) (n : Nat) :
    (npyInsertSort lt (List.range n)).Pairwise
      (fun a b => v a < v b ∨ (v a = v b ∧ a < b)) := by
  unfold npyInsertSort
  exact npyInsertSort_go_pairwise v lt hlt (List.range n) [] (by simp)
    (by simp) (List.pairwise_lt_range n)

/-- For at most 16 entries — `pr - pl = n - 1 ≤ 15` — the introsort
driver performs a single insertion-sort round over the whole index array
and stops: numpy's default sort is plain insertion sort there. -/
theorem npyArgsortBy_small (lt : Nat → Nat → Bool) (n : Nat) (hn : n ≤ 16) :
    npyArgsortBy lt n = npyInsertSort lt (List.range n) := by
  unfold npyArgsortBy
  rw [show 2 * n + 64 = (2 * n + 63) + 1 from rfl]
  unfold aqsortLoop
  dsimp only
  rw [if_neg (by omega : ¬ n - 1 - 0 > 15)]
  unfold spliceSorted
  match n with
  | 0 => simp [npyInsertSort]
  | m + 1 =>
    rw [List.drop_zero, List.take_zero, List.nil_append]
    rw [show m + 1 - 1 + 1 - 0 = m + 1 from by omega]
    rw [List.take_of_length_le (by simp), List.drop_eq_nil_of_le (by simp)]
    simp

/-- Reading through `map Neg.neg` negates the read, also at the default
(`-0 = 0`). -/
theorem getD_map_neg (l : List ℝ) (i : Nat) :
    (l.map Neg.neg).getD i 0 = -(l.getD i 0) := by
  rcases Nat.lt_or_ge i l.length with h | h
  · rw [List.getD_eq_getElem _ _ (by simpa using h), List.getD_eq_getElem _ _ h,
      List.getElem_map]
  · rw [List.getD_eq_default _ _ (by simpa using h), List.getD_eq_default _ _ h]
    simp

/-- C3 (counterexample): with seventeen stored embeddings all scoring
equally and `k = document_count = 17`, the claim requires the results in
insertion order `0, 1, …, 16`.  numpy's default `np.argsort` quicksort
partitions any segment of more than 16 elements and swaps tied elements
across the pivot, returning the order
`0, 14, 13, …, 1, 7, 16` instead — the ranking is not stable. -/
theorem similaritySearch_tie_order_refuted :
    computeSims c3Store [0] = List.replicate 17 (0 : ℝ) ∧
    c3Store.documents.length = 17 ∧
    (similaritySearch c3Store [0] 17 none).map Prod.fst ≠ c3Store.documents := by
  have hsims : computeSims c3Store [0] = List.replicate 17 (0 : ℝ) := by
    simp only [computeSims, c3Store]
    rw [List.map_replicate]
    simp [dot]
  have hrep : ∀ i : Nat, (List.replicate 17 (0 : ℝ)).getD i 0 = 0 := by
    intro i
    rcases Nat.lt_or_ge i 17 with h | h
    · rw [List.getD_eq_getElem _ _ (by simpa using h), List.getElem_replicate]
    · rw [List.getD_eq_default _ _ (by simpa using h)]
  have hltfun : (fun i j : Nat => decide ((List.replicate 17 (0 : ℝ)).getD i 0 <
      (List.replicate 17 (0 : ℝ)).getD j 0)) = (fun _ _ : Nat => false) := by
    funext i j
    rw [hrep i, hrep j]
    exact decide_eq_false (lt_irrefl 0)
  have hneg : (computeSims c3Store [0]).map Neg.neg = List.replicate 17 (0 : ℝ) := by
    rw [hsims]
    simp
  refine ⟨hsims, by decide, ?_⟩
  rw [similaritySearch, if_neg (by simp [c3Store])]
  dsimp only
  rw [hneg]
  unfold npyArgsort
  rw [hltfun, List.length_replicate]
  have hargsort : npyArgsortBy (fun _ _ : Nat => false) 17 =
      [0, 14, 13, 12, 11, 10, 9, 15, 8, 6, 5, 4, 3, 2, 1, 7, 16] := by
    decide
  rw [hargsort, pyTake_all 17 _ (by decide)]
  simp only [List.map_map, Function.comp_def]
  decide

/-- C3 (amended): for stores of at most 16 documents — where numpy's
default `np.argsort` is a plain, stable insertion sort — a search with
`k ≥ document_count` and no threshold returns exactly `document_count`
results, ranked by descending score with ties broken by insertion order
(the result sequence is the score-sorted index enumeration, earlier
insertion first on equal scores).  For larger stores the quicksort
partition can reorder ties, as the counterexample shows. -/
theorem similaritySearch_sorted_stable_small (s : Store) (q : List ℝ) (k : Int)
    (hm : s.documents.length = s.embeddings.length)
    (hn : s.embeddings.length ≤ 16)
    (hk : (s.documents.length : Int) ≤ k) :
    ∃ idx : List Nat,
      List.Perm idx (List.range s.embeddings.length) ∧
      similaritySearch s q k none =
        idx.map (fun i => (s.documents.getD i defaultDoc, (computeSims s q).getD i 0)) ∧
      idx.Pairwise (fun i j =>
        (computeSims s q).getD j 0 < (computeSims s q).getD i 0 ∨
        ((computeSims s q).getD i 0 = (computeSims s q).getD j 0 ∧ i < j)) ∧
      (similaritySearch s q k none).length = s.documents.length := by
  by_cases hemb : s.embeddings = []
  · have h0 : similaritySearch s q k none = [] := by
      rw [similaritySearch, if_pos hemb]
    refine ⟨[], by simp [hemb], by simp [h0], by simp, ?_⟩
    rw [h0, hm, hemb]
    simp
  · have hvl : ((computeSims s q).map Neg.neg).length = s.embeddings.length := by
      rw [List.length_map, computeSims_length]
    have hsmall : ((computeSims s q).map Neg.neg).length ≤ 16 := by
      rw [hvl]
      exact hn
    have hidx : npyArgsort ((computeSims s q).map Neg.neg) =
        npyInsertSort
          (fun i j => decide (((computeSims s q).map Neg.neg).getD i 0 <
            ((computeSims s q).map Neg.neg).getD j 0))
          (List.range ((computeSims s q).map Neg.neg).length) := by
      unfold npyArgsort
      exact npyArgsortBy_small _ _ hsmall
    have hperm : List.Perm (npyArgsort ((computeSims s q).map Neg.neg))
        (List.range s.embeddings.length) := by
      rw [hidx, ← hvl]
      exact npyInsertSort_perm _ _
    have hlen : (npyArgsort ((computeSims s q).map Neg.neg)).length =
        s.embeddings.length := by
      rw [hperm.length_eq, List.length_range]
    have htake : pyTake k (npyArgsort ((computeSims s q).map Neg.neg)) =
        npyArgsort ((computeSims s q).map Neg.neg) := by
      apply pyTake_all
      rw [hlen, ← hm]
      exact hk
    have hform : similaritySearch s q k none =
        (npyArgsort ((computeSims s q).map Neg.neg)).map
          (fun i => (s.documents.getD i defaultDoc, (computeSims s q).getD i 0)) := by
      rw [similaritySearch, if_neg hemb]
      dsimp only
      rw [htake]
    refine ⟨npyArgsort ((computeSims s q).map Neg.neg), hperm, hform, ?_, ?_⟩
    · have hpw := npyInsertSort_range_pairwise
        (fun i => ((computeSims s q).map Neg.neg).getD i 0)
        (fun i j => decide (((computeSims s q).map Neg.neg).getD i 0 <
          ((computeSims s q).map Neg.neg).getD j 0))
        (fun a b => decide_eq_true_iff)
        ((computeSims s q).map Neg.neg).length
      rw [← hidx] at hpw
      refine hpw.imp ?_
      intro a b hab
      rcases hab with h1 | h1
      · left
        rw [getD_map_neg, getD_map_neg] at h1
        exact neg_lt_neg_iff.mp h1
      · right
        refine ⟨?_, h1.2⟩
        have := h1.1
        rw [getD_map_neg, getD_map_neg] at this
        exact neg_inj.mp this
    · rw [hform, List.length_map, hlen, hm]

/-- Witness for C3 (amended) at a two-document store under the
dot-product metric with `k = 5`. -/
theorem similaritySearch_sorted_stable_small_witness :
    ∃ idx : List Nat,
      List.Perm idx (List.range 2) ∧
      similaritySearch ⟨[mkDoc "a", mkDoc "b"], [[1], [2]], .dotProduct⟩ [1] 5 none =
        idx.map (fun i =>
          ((([mkDoc "a", mkDoc "b"] : List Document)).getD i defaultDoc,
            (computeSims ⟨[mkDoc "a", mkDoc "b"], [[1], [2]], .dotProduct⟩ [1]).getD i 0)) ∧
      idx.Pairwise (fun i j =>
        (computeSims ⟨[mkDoc "a", mkDoc "b"], [[1], [2]], .dotProduct⟩ [1]).getD j 0 <
          (computeSims ⟨[mkDoc "a", mkDoc "b"], [[1], [2]], .dotProduct⟩ [1]).getD i 0 ∨
        ((computeSims ⟨[mkDoc "a", mkDoc "b"], [[1], [2]], .dotProduct⟩ [1]).getD i 0 =
          (computeSims ⟨[mkDoc "a", mkDoc "b"], [[1], [2]], .dotProduct⟩ [1]).getD j 0 ∧
          i < j)) ∧
      (similaritySearch ⟨[mkDoc "a", mkDoc "b"], [[1], [2]], .dotProduct⟩ [1] 5 none).length
        = 2 := by
  exact similaritySearch_sorted_stable_small
    ⟨[mkDoc "a", mkDoc "b"], [[1], [2]], .dotProduct⟩ [1] 5 rfl (by norm_num) (by norm_num)

/-- C8: `format_retrieved_documents` of the empty sequence returns the
fixed sentinel, which is not the empty string. -/
theorem formatRetrievedDocuments_empty :
    formatRetrievedDocuments [] = "Es wurden keine relevanten Dokumente gefunden." ∧
    formatRetrievedDocuments [] ≠ "" := by
  exact ⟨rfl, by decide⟩

/-- C9: `retrieve` resolves `top_k` with Python `or`, so an explicit
`top_k = 0` is falsy and behaves exactly as passing no value (the
configured default is used), while `threshold` is resolved with an
`is not None` test, so an explicit `threshold = 0.0` is passed through to
`similarity_search` as given. -/
theorem retrieve_topK_zero_falsy (r : Retriever) (q : String) (th : Option ℝ)
    (tk : Option Int) :
    retrieve r q (some 0) th = retrieve r q none th ∧
    resolveTopK (some 0) r.topK = r.topK ∧
    resolveThreshold (some 0) r.threshold = some 0 ∧
    retrieve r q tk (some 0) =
      (similaritySearch r.vectorStore (r.embedQuery q) (resolveTopK tk r.topK)
        (some 0)).map Prod.fst := by
  exact ⟨rfl, rfl, rfl, rfl⟩

/-- C10: `similarity_search` is a pure read: as a state transformer it
returns exactly the search results together with the unmodified store, so
documents, embeddings and the configured metric are identical before and
after the call. -/
theorem similaritySearch_pure (s : Store) (q : List ℝ) (k : Int) (th : Option ℝ) :
    (similaritySearchRun s q k th).2 = s ∧
    (similaritySearchRun s q k th).1 = similaritySearch s q k th ∧
    (similaritySearchRun s q k th).2.documents = s.documents ∧
    (similaritySearchRun s q k th).2.embeddings = s.embeddings ∧
    (similaritySearchRun s q k th).2.similarityMetric = s.similarityMetric := by
  exact ⟨rfl, rfl, rfl, rfl, rfl⟩

end Rag
